import Mathlib

/-!
Verification of the factor regression pipeline in scripts/factor_model.py.

The script computes Fama-French 3-factor (optionally Carhart 4-factor)
OLS regressions of monthly excess returns.  Floating-point numbers are
modelled as exact rationals; pandas missing values (NaN) are modelled as
Option.  The external least-squares solver np.linalg.lstsq (a library
call, not code of this repository) is modelled as an explicit function
parameter, characterised relationally by minimality of the residual sum
of squares.
-/

namespace FactorModel

/-! ## Regression engine (ols, lines 80-88 of factor_model.py) -/

/-- Dot product of two coefficient/row vectors (numpy row-times-vector). -/
def dot (a b : List ℚ) : ℚ :=
  (List.zipWith (· * ·) a b).sum

/-- Matrix-vector product `M @ v`, matrix given as list of rows. -/
def matVec (M : List (List ℚ)) (v : List ℚ) : List ℚ :=
  M.map (fun row => dot row v)

/-- `np.column_stack([np.ones(len(X)), X])`: prepend a column of ones. -/
def design (X : List (List ℚ)) : List (List ℚ) :=
  X.map (fun row => 1 :: row)

/-- Residual sum of squares `((y - X1 @ coefs) ** 2).sum()`. -/
def ssRes (y : List ℚ) (X1 : List (List ℚ)) (c : List ℚ) : ℚ :=
  ((List.zipWith (· - ·) y (matVec X1 c)).map (fun r => r ^ 2)).sum

/-- `y.mean()`. -/
def mean (y : List ℚ) : ℚ :=
  y.sum / y.length

/-- Total sum of squares `((y - y.mean()) ** 2).sum()`. -/
def ssTot (y : List ℚ) : ℚ :=
  (y.map (fun v => (v - mean y) ^ 2)).sum

/-- The ols function of the script.  `lstsq` models `np.linalg.lstsq`
(an external library routine); everything else is the script's own code:
build the design matrix with a leading column of ones, solve, and compute
`r2 = 1 - ss_res / ss_tot if ss_tot > 0 else np.nan` (NaN as `none`).
Returns `(coefs, r2, len(y))`. -/
def ols (lstsq : List (List ℚ) → List ℚ → List ℚ)
    (y : List ℚ) (X : List (List ℚ)) : List ℚ × Option ℚ × ℕ :=
  let X1 := design X
  let coefs := lstsq X1 y
  let ss_tot := ssTot y
  let ss_res := ssRes y X1 coefs
  (coefs, if 0 < ss_tot then some (1 - ss_res / ss_tot) else none, y.length)

/-- `c` solves the least-squares problem for `y` against `X1`: among all
coefficient vectors of the same length it minimises the residual sum of
squares.  This is the defining property of `np.linalg.lstsq`. -/
def IsLstsqSol (y : List ℚ) (X1 : List (List ℚ)) (c : List ℚ) : Prop :=
  ∀ c2 : List ℚ, c2.length = c.length → ssRes y X1 c ≤ ssRes y X1 c2

/-- The matrix `X1` has full column rank at width `k`: it is injective on
coefficient vectors of length `k`. -/
def FullColRank (X1 : List (List ℚ)) (k : ℕ) : Prop :=
  ∀ c1 c2 : List ℚ, c1.length = k → c2.length = k →
    matVec X1 c1 = matVec X1 c2 → c1 = c2

lemma sum_sq_nonneg (l : List ℚ) : 0 ≤ (l.map (fun r => r ^ 2)).sum := by
  induction l with
  | nil => simp
  | cons a l ih => simp only [List.map_cons, List.sum_cons]; positivity

lemma ssRes_nonneg (y : List ℚ) (X1 : List (List ℚ)) (c : List ℚ) :
    0 ≤ ssRes y X1 c :=
  sum_sq_nonneg _

lemma sum_sq_eq_zero {l : List ℚ} (h : (l.map (fun r => r ^ 2)).sum = 0) :
    ∀ r ∈ l, r = 0 := by
  induction l with
  | nil => simp
  | cons a l ih =>
    simp only [List.map_cons, List.sum_cons] at h
    have ha : 0 ≤ a ^ 2 := sq_nonneg a
    have hl : 0 ≤ (l.map (fun r => r ^ 2)).sum := sum_sq_nonneg l
    have ha0 : a ^ 2 = 0 := by linarith
    have hl0 : (l.map (fun r => r ^ 2)).sum = 0 := by linarith
    intro r hr
    rcases List.mem_cons.mp hr with h1 | h2
    · subst h1; exact pow_eq_zero_iff (n := 2) (by norm_num) |>.mp ha0
    · exact ih hl0 r h2

lemma zipWith_sub_all_zero {y z : List ℚ} (hlen : y.length = z.length)
    (h : ∀ r ∈ List.zipWith (· - ·) y z, r = 0) : y = z := by
  induction y generalizing z with
  | nil => cases z with
    | nil => rfl
    | cons b z => simp at hlen
  | cons a y ih =>
    cases z with
    | nil => simp at hlen
    | cons b z =>
      simp only [List.zipWith_cons_cons, List.mem_cons] at h
      have hab : a - b = 0 := h (a - b) (Or.inl rfl)
      have : y = z := ih (by simpa using hlen) (fun r hr => h r (Or.inr hr))
      rw [this, sub_eq_zero.mp hab]

lemma sum_sq_zipWith_self (l : List ℚ) :
    ((List.zipWith (· - ·) l l).map (fun r => r ^ 2)).sum = 0 := by
  induction l with
  | nil => rfl
  | cons a l ih => simp [ih]

lemma ssRes_self (X1 : List (List ℚ)) (c : List ℚ) :
    ssRes (matVec X1 c) X1 c = 0 :=
  sum_sq_zipWith_self (matVec X1 c)

lemma matVec_length (X1 : List (List ℚ)) (c : List ℚ) :
    (matVec X1 c).length = X1.length := by
  simp [matVec]

lemma ssRes_eq_zero_fit {y : List ℚ} {X1 : List (List ℚ)} {c : List ℚ}
    (hlen : y.length = X1.length) (h : ssRes y X1 c = 0) :
    y = matVec X1 c := by
  refine zipWith_sub_all_zero ?_ (sum_sq_eq_zero h)
  rw [hlen, matVec_length]

/-! ## Claims C1 and C2: the regression engine -/

/-- A least-squares solver witnessing numpy's minimum-norm answer on the
degenerate input of the C1 counterexample: for `X1 = [[1,1],[1,1]]`,
`y = [2,2]` the minimum-norm least-squares solution is `[1,1]`. -/
def cexSolver : List (List ℚ) → List ℚ → List ℚ :=
  fun _ _ => [1, 1]

/-- C1, counterexample.  Take `x = [1, 1]` (a constant factor column) and
`y = [2, 2] = a + b·x` with `a = 0`, `b = 2`, an exact affine relation.
The solver output `[1, 1]` is a genuine least-squares solution (residual
sum of squares 0), yet the fitted coefficients are not `[a, b] = [0, 2]`
(the intercept is 1, not 0) and `r2` is NaN (`none`), not `1.0`: with
constant `y`, `ss_tot = 0` and the script returns `np.nan`. -/
theorem C1_counterexample :
    [(2 : ℚ), 2] = matVec (design [[1], [1]]) [0, 2] ∧
    IsLstsqSol [2, 2] (design [[1], [1]]) (cexSolver (design [[1], [1]]) [2, 2]) ∧
    (ols cexSolver [2, 2] [[1], [1]]).1 ≠ [0, 2] ∧
    (ols cexSolver [2, 2] [[1], [1]]).2.1 ≠ some 1 := by
  refine ⟨by norm_num [matVec, design, dot], ?_, by norm_num [ols, cexSolver], ?_⟩
  · intro c2 hlen
    have h0 : ssRes [2, 2] (design [[1], [1]]) (cexSolver (design [[1], [1]]) [2, 2]) = 0 := by
      norm_num [ssRes, cexSolver, design, matVec, dot]
    rw [h0]
    exact ssRes_nonneg _ _ _
  · have htot : ssTot [2, 2] = 0 := by norm_num [ssTot, mean]
    show (if 0 < ssTot [2, 2]
      then some (1 - ssRes [2, 2] (design [[1], [1]]) (cexSolver (design [[1], [1]]) [2, 2]) / ssTot [2, 2])
      else none) ≠ some 1
    rw [htot]
    simp

/-- C1, amended.  If `y` is exactly affine in the single factor column
`xs` (`y = a + b·x`), the design matrix `[1, x]` has full column rank,
and `y` is not constant (`ss_tot > 0`), then any least-squares solution
recovers exactly `[a, b]` — intercept `a`, slope `b` — and `r2 = 1`. -/
theorem C1_ols_exact_affine (lstsq : List (List ℚ) → List ℚ → List ℚ)
    (xs : List ℚ) (a b : ℚ) (y : List ℚ)
    (hy : y = matVec (design (xs.map fun v => [v])) [a, b])
    (hsol : IsLstsqSol y (design (xs.map fun v => [v]))
      (lstsq (design (xs.map fun v => [v])) y))
    (hlen : (lstsq (design (xs.map fun v => [v])) y).length = 2)
    (hrank : FullColRank (design (xs.map fun v => [v])) 2)
    (htot : 0 < ssTot y) :
    (ols lstsq y (xs.map fun v => [v])).1 = [a, b] ∧
    (ols lstsq y (xs.map fun v => [v])).2.1 = some 1 := by
  set X1 := design (xs.map fun v => [v]) with hX1
  set coefs := lstsq X1 y with hcoefs
  have hself : ssRes y X1 [a, b] = 0 := by rw [hy]; exact ssRes_self X1 [a, b]
  have hle : ssRes y X1 coefs ≤ 0 := hself ▸ hsol [a, b] (by simp [hlen])
  have hzero : ssRes y X1 coefs = 0 := le_antisymm hle (ssRes_nonneg y X1 coefs)
  have hylen : y.length = X1.length := by rw [hy, matVec_length]
  have hfit : y = matVec X1 coefs := ssRes_eq_zero_fit hylen hzero
  have hceq : coefs = [a, b] := hrank coefs [a, b] hlen rfl (by rw [← hfit, ← hy])
  constructor
  · exact hceq
  · show (if 0 < ssTot y then some (1 - ssRes y X1 coefs / ssTot y) else none) = some 1
    rw [if_pos htot, hzero]
    simp

/-- A least-squares solver witnessing numpy's answer on the C1 witness
input: for `X1 = [[1,0],[1,1]]`, `y = [1,3]` the unique solution is
`[1, 2]`. -/
def wSolverC1 : List (List ℚ) → List ℚ → List ℚ :=
  fun _ _ => [1, 2]

/-- C1, witness: concrete instance `xs = [0, 1]`, `a = 1`, `b = 2`,
`y = [1, 3]`; the engine returns coefficients `[1, 2]` and `r2 = 1`. -/
theorem C1_witness :
    (ols wSolverC1 [1, 3] ([0, 1].map fun v => [v])).1 = [1, 2] ∧
    (ols wSolverC1 [1, 3] ([0, 1].map fun v => [v])).2.1 = some 1 := by
  refine C1_ols_exact_affine wSolverC1 [0, 1] 1 2 [1, 3]
    (by norm_num [matVec, design, dot]) ?_ (by simp [wSolverC1]) ?_
    (by norm_num [ssTot, mean])
  · intro c2 hlen
    have h0 : ssRes [1, 3] (design ([0, 1].map fun v => [v]))
        (wSolverC1 (design ([0, 1].map fun v => [v])) [1, 3]) = 0 := by
      norm_num [ssRes, wSolverC1, design, matVec, dot]
    rw [h0]
    exact ssRes_nonneg _ _ _
  · intro c1 c2 h1 h2 hm
    obtain ⟨p1, q1, rfl⟩ := List.length_eq_two.mp h1
    obtain ⟨p2, q2, rfl⟩ := List.length_eq_two.mp h2
    have e1 := congrArg (fun l => l.getD 0 0) hm
    have e2 := congrArg (fun l => l.getD 1 0) hm
    simp only [matVec, design, dot, List.map_cons, List.map_nil,
      List.zipWith_cons_cons, List.zipWith_nil_right, List.sum_cons, List.sum_nil,
      List.getD_cons_zero, List.getD_cons_succ, one_mul, zero_mul, add_zero,
      zero_add, mul_one] at e1 e2
    have hq : q1 = q2 := by linarith
    have hp : p1 = p2 := by linarith
    rw [hp, hq]

lemma list_sum_of_const {l : List ℚ} {k : ℚ} (h : ∀ v ∈ l, v = k) :
    l.sum = k * l.length := by
  induction l with
  | nil => simp
  | cons a l ih =>
    have ha : a = k := h a (List.mem_cons_self a l)
    have hl : l.sum = k * l.length := ih (fun v hv => h v (List.mem_cons_of_mem a hv))
    simp only [List.sum_cons, List.length_cons, ha, hl, Nat.cast_add, Nat.cast_one]
    ring

lemma mean_of_const {l : List ℚ} {k : ℚ} (hne : l ≠ []) (h : ∀ v ∈ l, v = k) :
    mean l = k := by
  have hlen : l.length ≠ 0 := by simpa [List.length_eq_zero] using hne
  have hn : (l.length : ℚ) ≠ 0 := Nat.cast_ne_zero.mpr hlen
  rw [mean, list_sum_of_const h, mul_div_assoc, div_self hn, mul_one]

/-- C2.  When `y` is constant, the total sum of squares is zero and the
engine returns `r2 = NaN` (modelled as `none`): the division
`1 - ss_res / ss_tot` is guarded by `ss_tot > 0` and never performed. -/
theorem C2_constant_y_r2_nan (lstsq : List (List ℚ) → List ℚ → List ℚ)
    (y : List ℚ) (X : List (List ℚ)) (k : ℚ) (hconst : ∀ v ∈ y, v = k) :
    ssTot y = 0 ∧ (ols lstsq y X).2.1 = none := by
  have htot : ssTot y = 0 := by
    cases hy : y with
    | nil => rfl
    | cons a ys =>
      rw [← hy]
      have hmean : mean y = k := mean_of_const (by rw [hy]; exact List.cons_ne_nil a ys) hconst
      refine List.sum_eq_zero ?_
      intro x hx
      obtain ⟨v, hv, rfl⟩ := List.mem_map.mp hx
      rw [hconst v hv, hmean]
      ring
  refine ⟨htot, ?_⟩
  show (if 0 < ssTot y then some (1 - ssRes y (design X) (lstsq (design X) y) / ssTot y)
    else none) = none
  rw [htot]
  simp

/-- C2, witness: `y = [5, 5]` is constant; the engine reports `r2 = NaN`. -/
theorem C2_witness :
    ssTot [5, 5] = 0 ∧ (ols (fun _ _ => [0, 0]) [5, 5] [[1], [2]]).2.1 = none :=
  C2_constant_y_r2_nan (fun _ _ => [0, 0]) [5, 5] [[1], [2]] 5 (by simp)

/-! ## Factor Normalizer (_ym_from_index and load_factors_ff, lines 22-60)

Raw provider values are percentages, modelled as `Option ℚ` (NaN = `none`,
matching `pd.to_numeric(..., errors="coerce")`).  The date parsing done by
pandas (`pd.to_datetime(..., errors="coerce").to_period("M").astype(str)`)
is modelled by giving each raw index element its parse outcome: either a
`YYYY-MM` rendering, or a failure, which pandas renders as the literal
string `"NaT"`. -/

/-- Outcome of parsing one raw index element to a month period. -/
inductive ParseOutcome where
  | parsed (ym : String)
  | failed
deriving DecidableEq

/-- One element of `_ym_from_index`: a parsed period formats as its
`YYYY-MM` string; a coerce failure (`NaT`) formats as `"NaT"` under
`.astype(str)`. -/
def ymFromIdxElem : ParseOutcome → String
  | .parsed ym => ym
  | .failed => "NaT"

/-- A row of the canonical factor table `factors_monthly`. -/
structure FacRow where
  ym : String
  mkt_rf : Option ℚ
  smb : Option ℚ
  hml : Option ℚ
  rf : Option ℚ
  mom : Option ℚ
deriving DecidableEq

/-- The canonical factor table; `hasMom` records whether the `mom`
column exists (the momentum merge succeeded). -/
structure FacTable where
  hasMom : Bool
  rows : List FacRow
deriving DecidableEq

/-- A raw FF3 row: its index parse outcome and the four factor columns
in percentage points (after column renaming, which is pure relabelling). -/
structure RawRow where
  idx : ParseOutcome
  mkt_rf : Option ℚ
  smb : Option ℚ
  hml : Option ℚ
  rf : Option ℚ
deriving DecidableEq

/-- A raw momentum row (column already renamed `Mom → mom`). -/
structure RawMomRow where
  idx : ParseOutcome
  mom : Option ℚ
deriving DecidableEq

/-- The ff3 frame after the `ym` column is added (no `mom` column yet). -/
def toFacRow (r : RawRow) : FacRow :=
  ⟨ymFromIdxElem r.idx, r.mkt_rf, r.smb, r.hml, r.rf, none⟩

/-- `ff3.merge(mom[["ym", "mom"]], on="ym", how="left")`: each left row is
kept; unmatched rows get a missing `mom`, matched rows one output row per
match. -/
def mergeMom (rows : List FacRow) (ms : List RawMomRow) : List FacRow :=
  rows.flatMap fun r =>
    match ms.filter (fun m => ymFromIdxElem m.idx == r.ym) with
    | [] => [{ r with mom := none }]
    | hits => hits.map fun m => { r with mom := m.mom }

/-- The percent-to-decimal loop: every non-`ym` column divided by 100. -/
def divideRow (r : FacRow) : FacRow :=
  ⟨r.ym, r.mkt_rf.map (· / 100), r.smb.map (· / 100), r.hml.map (· / 100),
    r.rf.map (· / 100), r.mom.map (· / 100)⟩

/-- The dropna subset filter: `mkt_rf, smb, hml, rf` all present. -/
def requiredPresent (r : FacRow) : Bool :=
  r.mkt_rf.isSome && r.smb.isSome && r.hml.isSome && r.rf.isSome

/-- Python's lexicographic string comparison (by code point), on the
underlying character lists.  Both the pandas comparison `ym >= start_ym`
and SQLite's text ordering compare this way. -/
def charsLe : List Char → List Char → Bool
  | [], _ => true
  | _ :: _, [] => false
  | a :: as, b :: bs => if a < b then true else if b < a then false else charsLe as bs

/-- Python's `a <= b` on strings. -/
def pyLe (a b : String) : Bool := charsLe a.toList b.toList

lemma charsLe_refl (as : List Char) : charsLe as as = true := by
  induction as with
  | nil => rfl
  | cons a as ih => simp [charsLe, lt_irrefl, ih]

lemma charsLe_total (as bs : List Char) :
    charsLe as bs = true ∨ charsLe bs as = true := by
  induction as generalizing bs with
  | nil => exact Or.inl rfl
  | cons a as ih =>
    cases bs with
    | nil => exact Or.inr rfl
    | cons b bs =>
      rcases lt_trichotomy a b with h | h | h
      · exact Or.inl (by simp [charsLe, h])
      · subst h
        rcases ih bs with h2 | h2
        · exact Or.inl (by simp [charsLe, lt_irrefl, h2])
        · exact Or.inr (by simp [charsLe, lt_irrefl, h2])
      · exact Or.inr (by simp [charsLe, h])

lemma charsLe_trans {as bs cs : List Char} (h1 : charsLe as bs = true)
    (h2 : charsLe bs cs = true) : charsLe as cs = true := by
  induction as generalizing bs cs with
  | nil => rfl
  | cons a as ih =>
    cases bs with
    | nil => simp [charsLe] at h1
    | cons b bs =>
      cases cs with
      | nil => simp [charsLe] at h2
      | cons c cs =>
        by_cases hab : a < b
        · by_cases hbc : b < c
          · simp [charsLe, lt_trans hab hbc]
          · by_cases hcb : c < b
            · simp [charsLe, hbc, hcb] at h2
            · have hbceq : b = c := le_antisymm (not_lt.mp hcb) (not_lt.mp hbc)
              subst hbceq
              simp [charsLe, hab]
        · by_cases hba : b < a
          · simp [charsLe, hab, hba] at h1
          · have habeq : a = b := le_antisymm (not_lt.mp hba) (not_lt.mp hab)
            subst habeq
            have h1s : charsLe as bs = true := by
              simpa [charsLe, lt_irrefl] using h1
            by_cases hac : a < c
            · simp [charsLe, hac]
            · by_cases hca : c < a
              · simp [charsLe, hac, hca] at h2
              · have h2s : charsLe bs cs = true := by
                  simpa [charsLe, hac, hca] using h2
                simp [charsLe, hac, hca, ih h1s h2s]

lemma pyLe_refl (a : String) : pyLe a a = true := charsLe_refl _

lemma pyLe_total (a b : String) : pyLe a b = true ∨ pyLe b a = true :=
  charsLe_total _ _

lemma pyLe_trans {a b c : String} (h1 : pyLe a b = true)
    (h2 : pyLe b c = true) : pyLe a c = true :=
  charsLe_trans h1 h2

/-- load_factors_ff: add `ym`, left-merge momentum when the momentum fetch
succeeded (`rawMom = some ms`; a fetch failure is the `none` case of the
try/except), divide all non-key columns by 100, keep rows with
`ym >= start_ym` (string comparison), and drop rows missing a required
factor value. -/
def load_factors_ff (start_ym : String) (raw3 : List RawRow)
    (rawMom : Option (List RawMomRow)) : FacTable :=
  let base := raw3.map toFacRow
  let merged := match rawMom with
    | some ms => mergeMom base ms
    | none => base
  let divided := merged.map divideRow
  ⟨rawMom.isSome,
    (divided.filter fun r => pyLe start_ym r.ym).filter requiredPresent⟩

/-- Modelled from the spec: a valid `YYYY-MM` time key (four digits,
a dash, two digits). -/
def validYM (s : String) : Bool :=
  match s.toList with
  | [y1, y2, y3, y4, d, m1, m2] =>
    y1.isDigit && y2.isDigit && y3.isDigit && y4.isDigit && (d == '-') &&
      m1.isDigit && m2.isDigit
  | _ => false

lemma mergeMom_exists {rows : List FacRow} (ms : List RawMomRow) {r : FacRow}
    (hr : r ∈ rows) :
    ∃ r2 ∈ mergeMom rows ms, r2.ym = r.ym ∧ r2.mkt_rf = r.mkt_rf ∧
      r2.smb = r.smb ∧ r2.hml = r.hml ∧ r2.rf = r.rf := by
  cases h : ms.filter (fun m => ymFromIdxElem m.idx == r.ym) with
  | nil =>
    refine ⟨{ r with mom := none }, ?_, rfl, rfl, rfl, rfl, rfl⟩
    refine List.mem_flatMap.mpr ⟨r, hr, ?_⟩
    rw [h]
    exact List.mem_singleton.mpr rfl
  | cons m rest =>
    refine ⟨{ r with mom := m.mom }, ?_, rfl, rfl, rfl, rfl, rfl⟩
    refine List.mem_flatMap.mpr ⟨r, hr, ?_⟩
    rw [h]
    exact List.mem_map.mpr ⟨m, List.mem_cons_self m rest, rfl⟩

/-! ## Claim C4: unparseable index rows -/

/-- A raw row whose index fails date parsing but whose factor values are
all present. -/
def cexRawRow : RawRow := ⟨.failed, some 1, some 2, some 3, some 4⟩

/-- C4, counterexample.  A raw row with an unparseable date index is NOT
excluded: pandas renders the coerced `NaT` as the string `"NaT"`, which
passes the start filter (the string `"NaT"` compares above every
`"YYYY-MM"` key) and is not touched by `dropna` (whose subset contains
only the factor columns).  The normalized table therefore contains a row
with time key `"NaT"`, which is not a valid `YYYY-MM` string. -/
theorem C4_counterexample :
    (load_factors_ff "2010-01" [cexRawRow] none).rows.map FacRow.ym = ["NaT"] ∧
    validYM "NaT" = false :=
  ⟨rfl, rfl⟩

/-- C4, amended.  A raw row whose index cannot be parsed is mapped to the
time key `"NaT"` and is retained (not excluded) by the Factor Normalizer
whenever its four required factor values are present and the start filter
passes (which it always does for start keys below `"NaT"`, in particular
every `YYYY-MM` key): the output table then contains a row whose
`time_key` is the invalid string `"NaT"`. -/
theorem C4_unparseable_rows_retained (start : String) (raw3 : List RawRow)
    (rawMom : Option (List RawMomRow)) (r : RawRow) (hr : r ∈ raw3)
    (hfail : r.idx = .failed)
    (h1 : r.mkt_rf.isSome = true) (h2 : r.smb.isSome = true)
    (h3 : r.hml.isSome = true) (h4 : r.rf.isSome = true)
    (hstart : pyLe start "NaT" = true) :
    "NaT" ∈ (load_factors_ff start raw3 rawMom).rows.map FacRow.ym := by
  have hymr : (toFacRow r).ym = "NaT" := by simp [toFacRow, hfail, ymFromIdxElem]
  cases rawMom with
  | none =>
    show "NaT" ∈ ((((raw3.map toFacRow).map divideRow).filter
      (fun r3 : FacRow => pyLe start r3.ym)).filter requiredPresent).map FacRow.ym
    refine List.mem_map.mpr ⟨divideRow (toFacRow r), ?_, by simp [divideRow, hymr]⟩
    refine List.mem_filter.mpr ⟨List.mem_filter.mpr
      ⟨List.mem_map_of_mem _ (List.mem_map_of_mem _ hr), ?_⟩, ?_⟩
    · show pyLe start (divideRow (toFacRow r)).ym = true
      rw [show (divideRow (toFacRow r)).ym = (toFacRow r).ym from rfl, hymr]
      exact hstart
    · simp [requiredPresent, divideRow, toFacRow, h1, h2, h3, h4]
  | some ms =>
    obtain ⟨r2, hr2, hym, hmkt, hsmb, hhml, hrf⟩ :=
      mergeMom_exists ms (List.mem_map_of_mem toFacRow hr)
    show "NaT" ∈ ((((mergeMom (raw3.map toFacRow) ms).map divideRow).filter
      (fun r3 : FacRow => pyLe start r3.ym)).filter requiredPresent).map FacRow.ym
    refine List.mem_map.mpr ⟨divideRow r2, ?_, by simp [divideRow, hym, hymr]⟩
    refine List.mem_filter.mpr ⟨List.mem_filter.mpr
      ⟨List.mem_map_of_mem _ hr2, ?_⟩, ?_⟩
    · show pyLe start (divideRow r2).ym = true
      rw [show (divideRow r2).ym = r2.ym from rfl, hym, hymr]
      exact hstart
    · simp [requiredPresent, divideRow, hmkt, hsmb, hhml, hrf, toFacRow, h1, h2, h3, h4]

/-- C4, witness: the amended theorem applied to the concrete unparseable
row of the counterexample. -/
theorem C4_witness :
    "NaT" ∈ (load_factors_ff "2010-01" [cexRawRow] none).rows.map FacRow.ym :=
  C4_unparseable_rows_retained "2010-01" [cexRawRow] none cexRawRow
    (List.mem_singleton.mpr rfl) rfl rfl rfl rfl rfl (by decide)

/-! ## Claim C5: percent-to-decimal conversion -/

/-- C5.  Every row of the normalized factor table comes from a raw row
whose non-key values were each divided exactly by 100, with the time key
taken untouched from the formatted index (never divided); the momentum
value, when present, is likewise a raw momentum value divided by 100. -/
theorem C5_percent_to_decimal (start : String) (raw3 : List RawRow)
    (rawMom : Option (List RawMomRow)) (row : FacRow)
    (hrow : row ∈ (load_factors_ff start raw3 rawMom).rows) :
    ∃ r ∈ raw3, row.ym = ymFromIdxElem r.idx ∧
      row.mkt_rf = r.mkt_rf.map (· / 100) ∧ row.smb = r.smb.map (· / 100) ∧
      row.hml = r.hml.map (· / 100) ∧ row.rf = r.rf.map (· / 100) ∧
      (row.mom = none ∨
        ∃ ms, rawMom = some ms ∧ ∃ m ∈ ms, row.mom = m.mom.map (· / 100)) := by
  cases rawMom with
  | none =>
    replace hrow : row ∈ (((raw3.map toFacRow).map divideRow).filter
        (fun r3 : FacRow => pyLe start r3.ym)).filter requiredPresent := hrow
    have hmem : row ∈ (raw3.map toFacRow).map divideRow :=
      List.mem_of_mem_filter (List.mem_of_mem_filter hrow)
    obtain ⟨fr, hfr, rfl⟩ := List.mem_map.mp hmem
    obtain ⟨r, hr, rfl⟩ := List.mem_map.mp hfr
    exact ⟨r, hr, rfl, rfl, rfl, rfl, rfl, Or.inl rfl⟩
  | some ms =>
    replace hrow : row ∈ (((mergeMom (raw3.map toFacRow) ms).map divideRow).filter
        (fun r3 : FacRow => pyLe start r3.ym)).filter requiredPresent := hrow
    have hmem : row ∈ (mergeMom (raw3.map toFacRow) ms).map divideRow :=
      List.mem_of_mem_filter (List.mem_of_mem_filter hrow)
    obtain ⟨fr, hfr, rfl⟩ := List.mem_map.mp hmem
    obtain ⟨b, hb, hfb⟩ := List.mem_flatMap.mp hfr
    obtain ⟨r, hr, rfl⟩ := List.mem_map.mp hb
    cases hff : ms.filter (fun m => ymFromIdxElem m.idx == (toFacRow r).ym) with
    | nil =>
      rw [hff] at hfb
      rw [List.mem_singleton.mp hfb]
      exact ⟨r, hr, rfl, rfl, rfl, rfl, rfl, Or.inl rfl⟩
    | cons m rest =>
      rw [hff] at hfb
      obtain ⟨m2, hm2, rfl⟩ := List.mem_map.mp hfb
      have hm2ms : m2 ∈ ms := List.mem_of_mem_filter (hff ▸ hm2)
      exact ⟨r, hr, rfl, rfl, rfl, rfl, rfl, Or.inr ⟨ms, rfl, m2, hm2ms, rfl⟩⟩

/-- A well-formed raw row used as the C5 witness input. -/
def wRaw5 : RawRow := ⟨.parsed "2020-01", some 3, some 2, some 1, some (1 / 2)⟩

/-- C5, witness: the theorem applied to a concrete one-row raw series. -/
theorem C5_witness :
    ∃ r ∈ [wRaw5], (divideRow (toFacRow wRaw5)).ym = ymFromIdxElem r.idx ∧
      (divideRow (toFacRow wRaw5)).mkt_rf = r.mkt_rf.map (· / 100) ∧
      (divideRow (toFacRow wRaw5)).smb = r.smb.map (· / 100) ∧
      (divideRow (toFacRow wRaw5)).hml = r.hml.map (· / 100) ∧
      (divideRow (toFacRow wRaw5)).rf = r.rf.map (· / 100) ∧
      ((divideRow (toFacRow wRaw5)).mom = none ∨
        ∃ ms, (none : Option (List RawMomRow)) = some ms ∧
          ∃ m ∈ ms, (divideRow (toFacRow wRaw5)).mom = m.mom.map (· / 100)) := by
  refine C5_percent_to_decimal "2010-01" [wRaw5] none (divideRow (toFacRow wRaw5)) ?_
  show divideRow (toFacRow wRaw5) ∈ (((([wRaw5].map toFacRow).map divideRow).filter
    (fun r3 : FacRow => pyLe "2010-01" r3.ym)).filter requiredPresent)
  refine List.mem_filter.mpr ⟨List.mem_filter.mpr ⟨?_, by decide⟩, by decide⟩
  simp

/-! ## Factor Provisioner (ensure_factors_in_db, lines 63-73)

The store is `Option FacTable`: `none` models a missing `factors_monthly`
table (the COUNT query raises and the except branch falls through to the
write); `some tbl` models an existing table with `tbl.rows` rows. -/

/-- ensure_factors_in_db: if the table exists and holds at least one row,
return immediately; otherwise fetch, normalize and write the table
(`if_exists="replace"`). -/
def ensure_factors_in_db (raw3 : List RawRow) (rawMom : Option (List RawMomRow))
    (start_ym : String) (store : Option FacTable) : Option FacTable :=
  match store with
  | some tbl =>
    if 0 < tbl.rows.length then some tbl
    else some (load_factors_ff start_ym raw3 rawMom)
  | none => some (load_factors_ff start_ym raw3 rawMom)

/-- C6.  Once the factor table holds at least one row, the provisioner is
a no-op: it returns the store unchanged, so a second call returns the
identical table contents. -/
theorem C6_ensure_idempotent (raw3 : List RawRow) (rawMom : Option (List RawMomRow))
    (start_ym : String) (tbl : FacTable) (hne : tbl.rows ≠ []) :
    ensure_factors_in_db raw3 rawMom start_ym (some tbl) = some tbl ∧
    ensure_factors_in_db raw3 rawMom start_ym
        (ensure_factors_in_db raw3 rawMom start_ym (some tbl)) =
      ensure_factors_in_db raw3 rawMom start_ym (some tbl) := by
  have hpos : 0 < tbl.rows.length := List.length_pos.mpr hne
  have h1 : ensure_factors_in_db raw3 rawMom start_ym (some tbl) = some tbl := by
    simp [ensure_factors_in_db, hpos]
  exact ⟨h1, by rw [h1, h1]⟩

/-- C6, witness: a store holding one factor row is returned unchanged. -/
theorem C6_witness :
    ensure_factors_in_db [] none "2010-01"
        (some ⟨false, [⟨"2020-01", some 1, some 1, some 1, some 1, none⟩]⟩) =
      some ⟨false, [⟨"2020-01", some 1, some 1, some 1, some 1, none⟩]⟩ ∧
    ensure_factors_in_db [] none "2010-01"
        (ensure_factors_in_db [] none "2010-01"
          (some ⟨false, [⟨"2020-01", some 1, some 1, some 1, some 1, none⟩]⟩)) =
      ensure_factors_in_db [] none "2010-01"
        (some ⟨false, [⟨"2020-01", some 1, some 1, some 1, some 1, none⟩]⟩) :=
  C6_ensure_idempotent [] none "2010-01"
    ⟨false, [⟨"2020-01", some 1, some 1, some 1, some 1, none⟩]⟩ (by simp)

/-! ## Orchestration (main, lines 91-180)

The per-asset loop: query returns and factors, inner-merge on `ym`, drop
rows missing a required value, regress, and record one result row per
asset.  The regression engine invocation `ols(y, X)` is abstracted as an
`Engine` oracle (its lstsq core is an external library routine and, under
the Carhart flag, its input matrix may contain NaN momentum entries,
modelled as `Option ℚ`); the orchestration claims hold for every engine.
`start` stands for the month-truncated `args.start[:7]`. -/

/-- A row of the `vw_monthly_returns` view. -/
structure RetRow where
  ticker : String
  ym : String
  mret : Option ℚ
deriving DecidableEq

/-- A row of the merged frame `rets[rets.ticker == t].merge(fac, on="ym")`. -/
structure Merged where
  ticker : String
  ym : String
  mret : Option ℚ
  mkt_rf : Option ℚ
  smb : Option ℚ
  hml : Option ℚ
  rf : Option ℚ
  mom : Option ℚ
deriving DecidableEq

/-- One output row of the inner merge. -/
def mergeRow (r : RetRow) (f : FacRow) : Merged :=
  ⟨r.ticker, r.ym, r.mret, f.mkt_rf, f.smb, f.hml, f.rf, f.mom⟩

/-- `rets[rets.ticker == t].merge(fac, on="ym", how="inner")`: for each
return row of the asset, one merged row per factor row with the same
time key (left order preserved, as pandas does for an inner merge). -/
def mergeTicker (rets : List RetRow) (fac : FacTable) (t : String) : List Merged :=
  (rets.filter fun r => r.ticker == t).flatMap fun r =>
    (fac.rows.filter fun f => f.ym == r.ym).map fun f => mergeRow r f

/-- `.dropna(subset=["mret", "mkt_rf", "smb", "hml", "rf"])`: note that
`mom` is deliberately NOT in the subset. -/
def keepRow (m : Merged) : Bool :=
  m.mret.isSome && m.mkt_rf.isSome && m.smb.isSome && m.hml.isSome && m.rf.isSome

/-- The aligned sample `d` for one asset. -/
def aligned (rets : List RetRow) (fac : FacTable) (t : String) : List Merged :=
  (mergeTicker rets fac t).filter keepRow

/-- The regression columns: `["mkt_rf", "smb", "hml"]`, plus `"mom"` when
the Carhart flag is set and the merged frame has a `mom` column (which it
has exactly when the factor table has one). -/
def xcols (carhart : Bool) (fac : FacTable) : List String :=
  ["mkt_rf", "smb", "hml"] ++ (if carhart && fac.hasMom then ["mom"] else [])

/-- Column lookup in a merged row (`d[xcols]`); a NaN stays `none`. -/
def colVal (m : Merged) (c : String) : Option ℚ :=
  if c == "mkt_rf" then m.mkt_rf
  else if c == "smb" then m.smb
  else if c == "hml" then m.hml
  else if c == "mom" then m.mom
  else none

/-- `X = d[xcols].values`. -/
def designX (carhart : Bool) (fac : FacTable) (d : List Merged) :
    List (List (Option ℚ)) :=
  d.map fun m => (xcols carhart fac).map (colVal m)

/-- `y = (d["mret"] - d["rf"]).values`; on the aligned sample both fields
are present, so the `getD 0` defaults are never taken. -/
def excessY (d : List Merged) : List ℚ :=
  d.map fun m => m.mret.getD 0 - m.rf.getD 0

/-- Python's `min` of two strings. -/
def pyMin (a b : String) : String := if pyLe a b then a else b

/-- Python's `max` of two strings. -/
def pyMax (a b : String) : String := if pyLe a b then b else a

/-- `d["ym"].min()`: lexicographic minimum of the time keys (only invoked
on a non-empty sample). -/
def ymMin (d : List Merged) : String :=
  match d.map Merged.ym with
  | [] => ""
  | s :: l => l.foldl pyMin s

/-- `d["ym"].max()`. -/
def ymMax (d : List Merged) : String :=
  match d.map Merged.ym with
  | [] => ""
  | s :: l => l.foldl pyMax s

/-- A row of `factor_reg_results`. -/
structure ResultRow where
  ticker : String
  start_ym : String
  end_ym : String
  nobs : ℕ
  r2 : Option ℚ
  alpha : Option ℚ
  beta_mkt : Option ℚ
  beta_smb : Option ℚ
  beta_hml : Option ℚ
  beta_mom : Option ℚ
deriving DecidableEq

/-- The INSERT of lines 165-172: `alpha = coefs[0]`, the betas are
`coefs[1..3]`, and `beta_mom = coefs[4] if len(xcols) == 4 else None`;
`start_ym`/`end_ym` are the observed min/max of the aligned time keys and
`nobs` is the `n` returned by the engine. -/
def mkResultRow (t : String) (d : List Merged) (cols : List String)
    (coefs : List ℚ) (r2 : Option ℚ) (n : ℕ) : ResultRow :=
  ⟨t, ymMin d, ymMax d, n, r2, coefs[0]?, coefs[1]?, coefs[2]?, coefs[3]?,
    if cols.length == 4 then coefs[4]? else none⟩

/-- The informational skip notice of line 146. -/
def skipMsg (t : String) : String :=
  "[INFO] Skipper " ++ t ++ " (ingen overlapp)."

/-- Rendering of a statistic in the summary line (the `:+.4f`/`:+.2f`
float formatting is abstracted to exact rational rendering). -/
def fmtQ : Option ℚ → String
  | some v => toString v.num ++ "/" ++ toString v.den
  | none => "nan"

/-- The per-asset summary line of lines 175-178, with `MOM` appended only
when `beta_mom` is not null. -/
def prettyLine (row : ResultRow) : String :=
  let base := row.ticker ++ ": alpha=" ++ fmtQ row.alpha ++ ", MKT=" ++
    fmtQ row.beta_mkt ++ ", SMB=" ++ fmtQ row.beta_smb ++ ", HML=" ++
    fmtQ row.beta_hml
  match row.beta_mom with
  | some v => base ++ ", MOM=" ++ fmtQ (some v)
  | none => base

/-- The regression engine as invoked by the loop: `ols(y, X)` returning
`(coefs, r2, n)`. -/
def Engine : Type :=
  List ℚ → List (List (Option ℚ)) → List ℚ × Option ℚ × ℕ

/-- The body of the per-ticker loop (lines 144-178): align; if empty,
skip with a notice and no row; otherwise regress and emit one persisted
row and one summary line. -/
def processTicker (engine : Engine) (carhart : Bool) (fac : FacTable)
    (rets : List RetRow) (t : String) : Option ResultRow × List String :=
  let d := aligned rets fac t
  if d.isEmpty then (none, [skipMsg t])
  else
    let res := engine (excessY d) (designX carhart fac d)
    let row := mkResultRow t d (xcols carhart fac) res.1 res.2.1 res.2.2
    (some row, [prettyLine row])

/-- The loop order `sorted(rets.ticker.unique())`. -/
def pyOrd (a b : String) : Prop := pyLe a b = true

instance : DecidableRel pyOrd :=
  fun a b => inferInstanceAs (Decidable (pyLe a b = true))

instance : IsTotal String pyOrd := ⟨pyLe_total⟩

instance : IsTrans String pyOrd := ⟨fun _ _ _ h1 h2 => pyLe_trans h1 h2⟩

/-- `sorted(rets.ticker.unique())`. -/
def sortedTickers (rets : List RetRow) : List String :=
  List.insertionSort pyOrd (rets.map RetRow.ticker).dedup

/-- The whole per-ticker loop: the emitted result rows and printed lines,
in loop order. -/
def processAll (engine : Engine) (carhart : Bool) (fac : FacTable)
    (rets : List RetRow) : List ResultRow × List String :=
  ((sortedTickers rets).filterMap fun t => (processTicker engine carhart fac rets t).1,
   (sortedTickers rets).flatMap fun t => (processTicker engine carhart fac rets t).2)

/-- SQL `ORDER BY ym` on return rows. -/
def retYmOrd (a b : RetRow) : Prop := pyLe a.ym b.ym = true

instance : DecidableRel retYmOrd :=
  fun a b => inferInstanceAs (Decidable (pyLe a.ym b.ym = true))

/-- SQL `ORDER BY ym` on factor rows. -/
def facYmOrd (a b : FacRow) : Prop := pyLe a.ym b.ym = true

instance : DecidableRel facYmOrd :=
  fun a b => inferInstanceAs (Decidable (pyLe a.ym b.ym = true))

/-- The returns query:
`SELECT ... WHERE ym >= ? AND ticker IN (...) ORDER BY ym`. -/
def retsQuery (store : List RetRow) (start : String) (tickers : List String) :
    List RetRow :=
  List.insertionSort retYmOrd
    (store.filter fun r => pyLe start r.ym && tickers.contains r.ticker)

/-- The factors query: `SELECT * FROM factors_monthly WHERE ym >= ? ORDER BY ym`. -/
def facQuery (tbl : FacTable) (start : String) : FacTable :=
  ⟨tbl.hasMom, List.insertionSort facYmOrd (tbl.rows.filter fun f => pyLe start f.ym)⟩

/-- main, steps 2-4 (after provisioning): query returns (fatal if empty),
query factors (fatal if empty), then run the per-ticker loop. -/
def runMain (engine : Engine) (carhart : Bool) (facStore : FacTable)
    (retStore : List RetRow) (start : String) (tickers : List String) :
    Except String (List ResultRow × List String) :=
  let rets := retsQuery retStore start tickers
  if rets.isEmpty then .error "Fant ingen monthly returns, kjoer pipelinen foerst."
  else
    let fac := facQuery facStore start
    if fac.rows.isEmpty then .error "Fant ingen faktorer i DB."
    else .ok (processAll engine carhart fac rets)

lemma processTicker_ticker {engine : Engine} {carhart : Bool} {fac : FacTable}
    {rets : List RetRow} {t : String} {r : ResultRow}
    (h : (processTicker engine carhart fac rets t).1 = some r) : r.ticker = t := by
  cases hd : (aligned rets fac t).isEmpty with
  | true => simp [processTicker, hd] at h
  | false =>
    simp only [processTicker, hd, Bool.false_eq_true, if_false] at h
    have h2 := Option.some.inj h
    subst h2
    rfl

/-! ## Claim C7: momentum gating -/

/-- C7.  The regression uses exactly the columns `mkt_rf, smb, hml` plus
`mom` appended exactly when the Carhart flag is set and the factor table
has a momentum column; the persisted `beta_mom` is non-null exactly in
that case (given that the engine returns one coefficient per design
column, i.e. `len(coefs) = len(xcols) + 1`, as `np.linalg.lstsq` does). -/
theorem C7_momentum_gating (carhart : Bool) (fac : FacTable) (t : String)
    (d : List Merged) (coefs : List ℚ) (r2 : Option ℚ) (n : ℕ)
    (hlen : coefs.length = (xcols carhart fac).length + 1) :
    (xcols carhart fac = if carhart && fac.hasMom
      then ["mkt_rf", "smb", "hml", "mom"] else ["mkt_rf", "smb", "hml"]) ∧
    ((mkResultRow t d (xcols carhart fac) coefs r2 n).beta_mom ≠ none ↔
      carhart = true ∧ fac.hasMom = true) := by
  refine ⟨by cases h : carhart && fac.hasMom <;> simp [xcols, h], ?_⟩
  cases h : carhart && fac.hasMom with
  | true =>
    have hx : (xcols carhart fac).length = 4 := by simp [xcols, h]
    rw [hx] at hlen
    have h5 : 4 < coefs.length := by omega
    have hsome : coefs[4]? = some coefs[4] := List.getElem?_eq_getElem h5
    obtain ⟨hc, hm⟩ : carhart = true ∧ fac.hasMom = true := by simpa using h
    have hbm : (mkResultRow t d (xcols carhart fac) coefs r2 n).beta_mom = coefs[4]? := by
      simp [mkResultRow, hx]
    rw [hbm, hsome]
    simp [hc, hm]
  | false =>
    have hfalse : ¬(carhart = true ∧ fac.hasMom = true) := by
      intro hb
      rw [hb.1, hb.2] at h
      simp at h
    have hx : (xcols carhart fac).length = 3 := by simp [xcols, h]
    simp [mkResultRow, hx, hfalse]

/-- C7, witness: with the Carhart flag and a momentum column, the column
list is the 4-element one and `beta_mom` is non-null. -/
theorem C7_witness :
    (xcols true ⟨true, []⟩ = if true && (FacTable.mk true []).hasMom
      then ["mkt_rf", "smb", "hml", "mom"] else ["mkt_rf", "smb", "hml"]) ∧
    ((mkResultRow "X" [] (xcols true ⟨true, []⟩) [0, 0, 0, 0, 0] none 0).beta_mom ≠ none ↔
      true = true ∧ (FacTable.mk true []).hasMom = true) :=
  C7_momentum_gating true ⟨true, []⟩ "X" [] [0, 0, 0, 0, 0] none 0 rfl

/-! ## Claim C10: missing momentum values are not dropped -/

/-- C10.  The dropna subset never includes `mom`: a merged row whose only
missing value is momentum passes the filter, is part of the aligned
sample (hence counted in `nobs`), and its column row, with a `none`
momentum entry when the Carhart model selects `mom`, enters the design
matrix. -/
theorem C10_missing_mom_retained (rets : List RetRow) (fac : FacTable)
    (t : String) (carhart : Bool) (m : Merged)
    (hm : m ∈ mergeTicker rets fac t)
    (h1 : m.mret.isSome = true) (h2 : m.mkt_rf.isSome = true)
    (h3 : m.smb.isSome = true) (h4 : m.hml.isSome = true)
    (h5 : m.rf.isSome = true) (hmom : m.mom = none) :
    m ∈ aligned rets fac t ∧ 0 < (aligned rets fac t).length ∧
    ((xcols carhart fac).map (colVal m)) ∈ designX carhart fac (aligned rets fac t) ∧
    (carhart = true → fac.hasMom = true →
      none ∈ (xcols carhart fac).map (colVal m)) := by
  have hkeep : keepRow m = true := by simp [keepRow, h1, h2, h3, h4, h5]
  have hal : m ∈ aligned rets fac t := List.mem_filter.mpr ⟨hm, hkeep⟩
  refine ⟨hal, List.length_pos_of_mem hal, List.mem_map_of_mem _ hal, ?_⟩
  intro hca hmo
  refine List.mem_map.mpr ⟨"mom", by simp [xcols, hca, hmo], ?_⟩
  exact (show colVal m "mom" = m.mom from rfl).trans hmom

/-- Factor table for the C10 witness: momentum column present but this
month's momentum value missing. -/
def wFacC10 : FacTable := ⟨true, [⟨"2020-01", some 1, some 1, some 1, some 1, none⟩]⟩

/-- Return rows for the C10 witness. -/
def wRetsC10 : List RetRow := [⟨"AAA", "2020-01", some 2⟩]

/-- C10, witness: the merged 2020-01 row of asset AAA, whose only missing
value is momentum, stays in the aligned sample and its design-matrix row
carries a NaN momentum entry. -/
theorem C10_witness :
    mergeRow ⟨"AAA", "2020-01", some 2⟩ ⟨"2020-01", some 1, some 1, some 1, some 1, none⟩ ∈
      aligned wRetsC10 wFacC10 "AAA" ∧
    0 < (aligned wRetsC10 wFacC10 "AAA").length ∧
    ((xcols true wFacC10).map
        (colVal (mergeRow ⟨"AAA", "2020-01", some 2⟩ ⟨"2020-01", some 1, some 1, some 1, some 1, none⟩))) ∈
      designX true wFacC10 (aligned wRetsC10 wFacC10 "AAA") ∧
    (true = true → wFacC10.hasMom = true →
      none ∈ (xcols true wFacC10).map
        (colVal (mergeRow ⟨"AAA", "2020-01", some 2⟩ ⟨"2020-01", some 1, some 1, some 1, some 1, none⟩))) :=
  C10_missing_mom_retained wRetsC10 wFacC10 "AAA" true
    (mergeRow ⟨"AAA", "2020-01", some 2⟩ ⟨"2020-01", some 1, some 1, some 1, some 1, none⟩)
    (by decide) rfl rfl rfl rfl rfl rfl

/-! ## Claim C8: empty-overlap handling -/

/-- C8.  When an asset's aligned sample is empty, the loop body emits no
result row and exactly the informational skip notice, and the batch's
emitted rows never mention that asset (rows for the other assets are
produced by the same total loop, which continues unconditionally). -/
theorem C8_empty_overlap_skipped (engine : Engine) (carhart : Bool)
    (fac : FacTable) (rets : List RetRow) (t : String)
    (h : aligned rets fac t = []) :
    processTicker engine carhart fac rets t = (none, [skipMsg t]) ∧
    ∀ r ∈ (processAll engine carhart fac rets).1, r.ticker ≠ t := by
  have hpt : processTicker engine carhart fac rets t = (none, [skipMsg t]) := by
    simp [processTicker, h]
  refine ⟨hpt, ?_⟩
  intro r hr heq
  obtain ⟨u, hu, hru⟩ := List.mem_filterMap.mp hr
  have htick : r.ticker = u := processTicker_ticker hru
  have hut : u = t := by rw [← htick, heq]
  rw [hut, hpt] at hru
  simp at hru

/-- Factor table for the C8 witness (covers only 2020-01). -/
def wFacC8 : FacTable := ⟨false, [⟨"2020-01", some 1, some 1, some 1, some 1, none⟩]⟩

/-- Return rows for the C8 witness: asset ZZZ has returns only in
1999-01, with no overlap with the factor table. -/
def wRetsC8 : List RetRow := [⟨"ZZZ", "1999-01", some 1⟩]

/-- An engine instance used by concrete witnesses; it returns four zero
coefficients, an undefined r2 and `n = len(y)` like the script's ols. -/
def wEngine : Engine := fun y _ => ([0, 0, 0, 0], none, y.length)

/-- C8, witness: asset ZZZ has no overlap; it is skipped with the notice
and no emitted row carries its ticker. -/
theorem C8_witness :
    processTicker wEngine false wFacC8 wRetsC8 "ZZZ" = (none, [skipMsg "ZZZ"]) ∧
    ∀ r ∈ (processAll wEngine false wFacC8 wRetsC8).1, r.ticker ≠ "ZZZ" :=
  C8_empty_overlap_skipped wEngine false wFacC8 wRetsC8 "ZZZ" (by decide)

/-! ## Claim C3: observed range and sample count -/

lemma pyMin_le_left (s a : String) : pyLe (pyMin s a) s = true := by
  by_cases hle : pyLe s a = true
  · simp only [pyMin, if_pos hle]
    exact pyLe_refl s
  · simp only [pyMin, if_neg hle]
    exact (pyLe_total s a).resolve_left hle

lemma pyMin_le_right (s a : String) : pyLe (pyMin s a) a = true := by
  by_cases hle : pyLe s a = true
  · simp only [pyMin, if_pos hle]
    exact hle
  · simp only [pyMin, if_neg hle]
    exact pyLe_refl a

lemma left_le_pyMax (s a : String) : pyLe s (pyMax s a) = true := by
  by_cases hle : pyLe s a = true
  · simp only [pyMax, if_pos hle]
    exact hle
  · simp only [pyMax, if_neg hle]
    exact pyLe_refl s

lemma right_le_pyMax (s a : String) : pyLe a (pyMax s a) = true := by
  by_cases hle : pyLe s a = true
  · simp only [pyMax, if_pos hle]
    exact pyLe_refl a
  · simp only [pyMax, if_neg hle]
    exact (pyLe_total s a).resolve_left hle

lemma foldl_pyMin_mem (s : String) (l : List String) :
    l.foldl pyMin s ∈ s :: l := by
  induction l generalizing s with
  | nil => exact List.mem_singleton.mpr rfl
  | cons a l ih =>
    simp only [List.foldl_cons]
    rcases List.mem_cons.mp (ih (pyMin s a)) with h1 | h1
    · rw [h1]
      by_cases hle : pyLe s a = true
      · simp [pyMin, hle]
      · simp [pyMin, hle]
    · exact List.mem_cons_of_mem _ (List.mem_cons_of_mem _ h1)

lemma foldl_pyMin_le (s : String) (l : List String) :
    ∀ x ∈ s :: l, pyLe (l.foldl pyMin s) x = true := by
  induction l generalizing s with
  | nil =>
    intro x hx
    rw [List.mem_singleton.mp hx]
    exact pyLe_refl _
  | cons a l ih =>
    intro x hx
    simp only [List.foldl_cons]
    have hbase : pyLe (List.foldl pyMin (pyMin s a) l) (pyMin s a) = true :=
      ih (pyMin s a) _ (List.mem_cons_self _ _)
    rcases List.mem_cons.mp hx with h1 | h1
    · rw [h1]
      exact pyLe_trans hbase (pyMin_le_left s a)
    · rcases List.mem_cons.mp h1 with h2 | h2
      · rw [h2]
        exact pyLe_trans hbase (pyMin_le_right s a)
      · exact ih (pyMin s a) x (List.mem_cons_of_mem _ h2)

lemma foldl_pyMax_mem (s : String) (l : List String) :
    l.foldl pyMax s ∈ s :: l := by
  induction l generalizing s with
  | nil => exact List.mem_singleton.mpr rfl
  | cons a l ih =>
    simp only [List.foldl_cons]
    rcases List.mem_cons.mp (ih (pyMax s a)) with h1 | h1
    · rw [h1]
      by_cases hle : pyLe s a = true
      · simp [pyMax, hle]
      · simp [pyMax, hle]
    · exact List.mem_cons_of_mem _ (List.mem_cons_of_mem _ h1)

lemma foldl_pyMax_ge (s : String) (l : List String) :
    ∀ x ∈ s :: l, pyLe x (l.foldl pyMax s) = true := by
  induction l generalizing s with
  | nil =>
    intro x hx
    rw [List.mem_singleton.mp hx]
    exact pyLe_refl _
  | cons a l ih =>
    intro x hx
    simp only [List.foldl_cons]
    have hbase : pyLe (pyMax s a) (List.foldl pyMax (pyMax s a) l) = true :=
      ih (pyMax s a) _ (List.mem_cons_self _ _)
    rcases List.mem_cons.mp hx with h1 | h1
    · rw [h1]
      exact pyLe_trans (left_le_pyMax s a) hbase
    · rcases List.mem_cons.mp h1 with h2 | h2
      · rw [h2]
        exact pyLe_trans (right_le_pyMax s a) hbase
      · exact ih (pyMax s a) x (List.mem_cons_of_mem _ h2)

lemma ymMin_mem (m : Merged) (ms : List Merged) :
    ymMin (m :: ms) ∈ (m :: ms).map Merged.ym := by
  show (List.map Merged.ym ms).foldl pyMin m.ym ∈ m.ym :: List.map Merged.ym ms
  exact foldl_pyMin_mem _ _

lemma ymMin_le (m : Merged) (ms : List Merged) :
    ∀ x ∈ (m :: ms).map Merged.ym, pyLe (ymMin (m :: ms)) x = true := by
  intro x hx
  show pyLe ((List.map Merged.ym ms).foldl pyMin m.ym) x = true
  exact foldl_pyMin_le _ _ x hx

lemma ymMax_mem (m : Merged) (ms : List Merged) :
    ymMax (m :: ms) ∈ (m :: ms).map Merged.ym := by
  show (List.map Merged.ym ms).foldl pyMax m.ym ∈ m.ym :: List.map Merged.ym ms
  exact foldl_pyMax_mem _ _

lemma ymMax_ge (m : Merged) (ms : List Merged) :
    ∀ x ∈ (m :: ms).map Merged.ym, pyLe x (ymMax (m :: ms)) = true := by
  intro x hx
  show pyLe x ((List.map Merged.ym ms).foldl pyMax m.ym) = true
  exact foldl_pyMax_ge _ _ x hx

/-- C3.  For a non-empty aligned sample the loop emits a result row whose
`nobs` is the aligned sample count (the engine's `n` is `len(y)`, as the
script's ols returns) and whose `start_ym`/`end_ym` are the minimum and
maximum observed time keys of the aligned sample. -/
theorem C3_observed_range (engine : Engine) (carhart : Bool) (fac : FacTable)
    (rets : List RetRow) (t : String)
    (hne : aligned rets fac t ≠ [])
    (hEng : ∀ y X, (engine y X).2.2 = y.length) :
    ∃ row, (processTicker engine carhart fac rets t).1 = some row ∧
      row.nobs = (aligned rets fac t).length ∧
      row.start_ym ∈ (aligned rets fac t).map Merged.ym ∧
      (∀ s ∈ (aligned rets fac t).map Merged.ym, pyLe row.start_ym s = true) ∧
      row.end_ym ∈ (aligned rets fac t).map Merged.ym ∧
      (∀ s ∈ (aligned rets fac t).map Merged.ym, pyLe s row.end_ym = true) := by
  have hd : (aligned rets fac t).isEmpty = false := List.isEmpty_eq_false.mpr hne
  obtain ⟨m, ms, hA⟩ : ∃ m ms, aligned rets fac t = m :: ms := by
    cases hAl : aligned rets fac t with
    | nil => exact absurd hAl hne
    | cons m ms => exact ⟨m, ms, rfl⟩
  refine ⟨mkResultRow t (aligned rets fac t) (xcols carhart fac)
      (engine (excessY (aligned rets fac t)) (designX carhart fac (aligned rets fac t))).1
      (engine (excessY (aligned rets fac t)) (designX carhart fac (aligned rets fac t))).2.1
      (engine (excessY (aligned rets fac t)) (designX carhart fac (aligned rets fac t))).2.2,
    ?_, ?_, ?_, ?_, ?_, ?_⟩
  · simp [processTicker, hd]
  · show (engine (excessY (aligned rets fac t)) _).2.2 = _
    rw [hEng]
    simp [excessY]
  · show ymMin (aligned rets fac t) ∈ (aligned rets fac t).map Merged.ym
    rw [hA]
    exact ymMin_mem m ms
  · show ∀ s ∈ (aligned rets fac t).map Merged.ym,
      pyLe (ymMin (aligned rets fac t)) s = true
    rw [hA]
    exact ymMin_le m ms
  · show ymMax (aligned rets fac t) ∈ (aligned rets fac t).map Merged.ym
    rw [hA]
    exact ymMax_mem m ms
  · show ∀ s ∈ (aligned rets fac t).map Merged.ym,
      pyLe s (ymMax (aligned rets fac t)) = true
    rw [hA]
    exact ymMax_ge m ms

/-- Factor table for the C3 witness: twelve rows `2020-01..2020-12`. -/
def wFacC3 : FacTable :=
  ⟨false,
    [⟨"2020-01", some 1, some 1, some 1, some 1, none⟩,
     ⟨"2020-02", some 1, some 1, some 1, some 1, none⟩,
     ⟨"2020-03", some 1, some 1, some 1, some 1, none⟩,
     ⟨"2020-04", some 1, some 1, some 1, some 1, none⟩,
     ⟨"2020-05", some 1, some 1, some 1, some 1, none⟩,
     ⟨"2020-06", some 1, some 1, some 1, some 1, none⟩,
     ⟨"2020-07", some 1, some 1, some 1, some 1, none⟩,
     ⟨"2020-08", some 1, some 1, some 1, some 1, none⟩,
     ⟨"2020-09", some 1, some 1, some 1, some 1, none⟩,
     ⟨"2020-10", some 1, some 1, some 1, some 1, none⟩,
     ⟨"2020-11", some 1, some 1, some 1, some 1, none⟩,
     ⟨"2020-12", some 1, some 1, some 1, some 1, none⟩]⟩

/-- Return rows for the C3 witness: asset SPY has returns only for the
seven months `2020-06..2020-12`. -/
def wRetsC3 : List RetRow :=
  [⟨"SPY", "2020-06", some 2⟩, ⟨"SPY", "2020-07", some 2⟩,
   ⟨"SPY", "2020-08", some 2⟩, ⟨"SPY", "2020-09", some 2⟩,
   ⟨"SPY", "2020-10", some 2⟩, ⟨"SPY", "2020-11", some 2⟩,
   ⟨"SPY", "2020-12", some 2⟩]

/-- C3, witness: the spec's sample scenario.  The emitted row has the
observed range, and concretely `start_ym = "2020-06"`, `end_ym =
"2020-12"`, `nobs = 7` (not the requested `2020-01`). -/
theorem C3_witness :
    (∃ row, (processTicker wEngine false wFacC3 wRetsC3 "SPY").1 = some row ∧
      row.nobs = (aligned wRetsC3 wFacC3 "SPY").length ∧
      row.start_ym ∈ (aligned wRetsC3 wFacC3 "SPY").map Merged.ym ∧
      (∀ s ∈ (aligned wRetsC3 wFacC3 "SPY").map Merged.ym, pyLe row.start_ym s = true) ∧
      row.end_ym ∈ (aligned wRetsC3 wFacC3 "SPY").map Merged.ym ∧
      (∀ s ∈ (aligned wRetsC3 wFacC3 "SPY").map Merged.ym, pyLe s row.end_ym = true)) ∧
    ((processTicker wEngine false wFacC3 wRetsC3 "SPY").1.map
        fun row => (row.start_ym, row.end_ym, row.nobs)) =
      some ("2020-06", "2020-12", 7) :=
  ⟨C3_observed_range wEngine false wFacC3 wRetsC3 "SPY" (by decide) (fun _ _ => rfl),
   by decide⟩

/-! ## Claim C9: order invariance and sorted output -/

lemma map_ticker_filterMap (engine : Engine) (carhart : Bool) (fac : FacTable)
    (rets : List RetRow) (l : List String) :
    ((l.filterMap fun t => (processTicker engine carhart fac rets t).1).map
        ResultRow.ticker) =
      l.filter fun t => ((processTicker engine carhart fac rets t).1).isSome := by
  induction l with
  | nil => rfl
  | cons a l ih =>
    cases ha : (processTicker engine carhart fac rets a).1 with
    | none => simp [List.filterMap_cons, List.filter_cons, ha, ih]
    | some r =>
      have hta : r.ticker = a := processTicker_ticker ha
      simp [List.filterMap_cons, List.filter_cons, ha, ih, hta]

/-- C9.  The emitted output is invariant under permutation of the input
ticker list (the query's IN-filter only tests membership), and the
emitted result rows are in ascending lexicographic ticker order (the loop
runs over `sorted(...)` and each iteration emits at most one row tagged
with its own ticker). -/
theorem C9_order_invariance (engine : Engine) (carhart : Bool)
    (facStore : FacTable) (retStore : List RetRow) (start : String)
    (ts1 ts2 : List String) (hperm : ts1.Perm ts2) :
    runMain engine carhart facStore retStore start ts1 =
      runMain engine carhart facStore retStore start ts2 ∧
    ∀ rows logs, runMain engine carhart facStore retStore start ts1 =
        Except.ok (rows, logs) →
      List.Sorted pyOrd (rows.map ResultRow.ticker) := by
  have hq : retsQuery retStore start ts1 = retsQuery retStore start ts2 := by
    unfold retsQuery
    congr 1
    apply List.filter_congr
    intro r _
    have hc : ts1.contains r.ticker = ts2.contains r.ticker := by
      show ts1.elem r.ticker = ts2.elem r.ticker
      rw [List.elem_eq_mem, List.elem_eq_mem]
      exact decide_eq_decide.mpr hperm.mem_iff
    rw [hc]
  constructor
  · unfold runMain
    rw [hq]
  · intro rows logs h
    unfold runMain at h
    by_cases h1 : (retsQuery retStore start ts1).isEmpty
    · rw [if_pos h1] at h
      exact absurd h (by simp)
    · rw [if_neg h1] at h
      by_cases h2 : (facQuery facStore start).rows.isEmpty
      · rw [if_pos h2] at h
        exact absurd h (by simp)
      · rw [if_neg h2] at h
        have hpair := Except.ok.inj h
        have hrows : rows = (processAll engine carhart (facQuery facStore start)
            (retsQuery retStore start ts1)).1 := by
          rw [Prod.ext_iff] at hpair
          exact hpair.1.symm
        rw [hrows]
        show List.Sorted pyOrd
          ((((sortedTickers (retsQuery retStore start ts1)).filterMap
            fun t => (processTicker engine carhart (facQuery facStore start)
              (retsQuery retStore start ts1) t).1).map ResultRow.ticker))
        rw [map_ticker_filterMap]
        exact List.Pairwise.filter _
          (List.sorted_insertionSort pyOrd
            ((retsQuery retStore start ts1).map RetRow.ticker).dedup)

/-- Return store for the C9 witness. -/
def wStoreC9 : List RetRow :=
  [⟨"A", "2020-01", some 1⟩, ⟨"B", "2020-01", some 1⟩]

/-- Factor store for the C9 witness. -/
def wFacC9 : FacTable := ⟨false, [⟨"2020-01", some 1, some 1, some 1, some 1, none⟩]⟩

/-- C9, witness: permuting the requested tickers `["B", "A"]` into
`["A", "B"]` leaves the run output unchanged, and the emitted rows are in
ascending ticker order. -/
theorem C9_witness :
    runMain wEngine false wFacC9 wStoreC9 "2020-01" ["B", "A"] =
      runMain wEngine false wFacC9 wStoreC9 "2020-01" ["A", "B"] ∧
    ∀ rows logs, runMain wEngine false wFacC9 wStoreC9 "2020-01" ["B", "A"] =
        Except.ok (rows, logs) →
      List.Sorted pyOrd (rows.map ResultRow.ticker) :=
  C9_order_invariance wEngine false wFacC9 wStoreC9 "2020-01" ["B", "A"] ["A", "B"]
    (by decide)

end FactorModel
